import Mathlib

/-!
Verification development for the StringAnalyzerService repository
(`src/main.go`).  The Go source is shallowly embedded: Go strings are
Lean `String`s processed as their lists of code points (Go `for ... range`
iterates runes), Go `int` values that can be negative are `Int`, counts
are `Nat`, and the Go `map` values are embedded as association lists or
as extensional lookup functions as documented at each definition.
-/

set_option maxRecDepth 10000

/-! ## Character helpers -/

/-- Embeds Go `strings.ToLower` on a single rune.  Go applies the Unicode
simple lowercase mapping; on the ASCII range — where the whole fixed
vocabulary of this service and all discriminating inputs of this
development live — that mapping is exactly `A`–`Z` ↦ `a`–`z`, which is
what is embedded here; every other code point is left unchanged (as Go
does for unmapped code points such as digits, punctuation and the
whitespace characters). -/
def goToLower (c : Char) : Char :=
  if 'A' ≤ c ∧ c ≤ 'Z' then Char.ofNat (c.toNat + 32) else c

/-- The list of code points of a Go string after `strings.ToLower`,
in order. -/
def lowerList (s : String) : List Char :=
  s.toList.map goToLower

/-- The character class matched by Go's regexp `\s`:
exactly `[\t\n\f\r ]` (RE2 Perl class).  Note that this does NOT include
the vertical tab U+000B nor any Unicode space such as U+00A0. -/
def goRegexpSpace (c : Char) : Bool :=
  c = '\t' ∨ c = '\n' ∨ c = '\x0C' ∨ c = '\r' ∨ c = ' '

/-- The Unicode `White_Space` code points (the class Go's
`unicode.IsSpace` recognizes).  Used only to state the spec's notion of
"any whitespace" for the palindrome claim. -/
def isUnicodeWhitespace (c : Char) : Bool :=
  c.toNat ∈ ([0x9, 0xA, 0xB, 0xC, 0xD, 0x20, 0x85, 0xA0, 0x1680,
    0x2000, 0x2001, 0x2002, 0x2003, 0x2004, 0x2005, 0x2006, 0x2007,
    0x2008, 0x2009, 0x200A, 0x2028, 0x2029, 0x202F, 0x205F, 0x3000] : List Nat)

/-! ## Palindrome check (`checkPalindrome`, main.go lines 267–278) -/

/-- The rune slice the Go code compares:
`[]rune(strings.ToLower(regexp.MustCompile(`+"`\\s+`"+`).ReplaceAllString(s, "")))`.
Replacing every maximal run of `\s` characters by the empty string is
the same as dropping every `\s` character, so it is embedded as a
filter, followed by the lowering map. -/
def cleanedRunes (s : String) : List Char :=
  (s.toList.filter (fun c => ¬ goRegexpSpace c)).map goToLower

/-- The two-pointer loop of `checkPalindrome`:
`for i, j := 0, len(runes)-1; i < j; i, j = i+1, j-1`, returning `false`
as soon as `runes[i] != runes[j]`.  Indexing is embedded with `getD`
(the loop never reads out of bounds, so the default is irrelevant).
The structural `fuel` argument only bounds the number of iterations;
the loop closes the gap `j - i` by 2 per iteration, so any fuel with
`j - i ≤ 2 * fuel` — in particular the rune count used below — makes
the embedding exact, which is what `palAux_iff` proves. -/
def palAux : Nat → List Char → Nat → Nat → Bool
  | 0, _, _, _ => true
  | fuel + 1, runes, i, j =>
    if i < j then
      if runes.getD i ' ' ≠ runes.getD j ' ' then false
      else palAux fuel runes (i + 1) (j - 1)
    else true

/-- Embeds `checkPalindrome` (main.go lines 267–278). -/
def checkPalindrome (s : String) : Bool :=
  let runes := cleanedRunes s
  palAux runes.length runes 0 (runes.length - 1)

/-- Stated from the spec's words for claim C1: strip ALL whitespace
(any Unicode whitespace character), case-fold, and compare the code
point sequence with its reverse.  This is the comparison point for the
claim, not an embedding of the Go code. -/
def specPalindromeAllWS (s : String) : Bool :=
  let t := (s.toList.filter (fun c => ¬ isUnicodeWhitespace c)).map goToLower
  t = t.reverse

/-! ## Unique characters, word count, frequency map -/

/-- The per-character filter used by `countUniqueCharacters` and
`buildCharacterFrequencyMap`: `r != ' ' && r != '\t' && r != '\n'`. -/
def keepChar (c : Char) : Bool :=
  c ≠ ' ' ∧ c ≠ '\t' ∧ c ≠ '\n'

/-- Inserting into the Go set `map[rune]bool` (`charSet[r] = true`),
embedded as an insertion-ordered duplicate-free list: a new key is
appended, an existing key leaves the set unchanged.  Only the key set
and its size are ever observed. -/
def insertSet (l : List Char) (c : Char) : List Char :=
  if c ∈ l then l else l ++ [c]

/-- Embeds `countUniqueCharacters` (main.go lines 281–289): iterate the
runes of `strings.ToLower(s)`, skipping space, tab and newline, insert
each remaining rune into a set, and return the set's size. -/
def countUniqueCharacters (s : String) : Nat :=
  ((lowerList s).foldl (fun acc r => if keepChar r then insertSet acc r else acc) []).length

/-- Embeds `countWords` (main.go lines 292–295): `strings.Fields` splits
around every maximal run of Unicode whitespace (`unicode.IsSpace`) and
the code returns the number of fields.  Embedded as a scan that counts
the starts of maximal non-whitespace runs. -/
def countFieldsAux : List Char → Bool → Nat
  | [], _ => 0
  | c :: rest, inWord =>
    if isUnicodeWhitespace c then countFieldsAux rest false
    else (if inWord then 0 else 1) + countFieldsAux rest true

/-- Embeds `countWords` (main.go lines 292–295). -/
def countWords (s : String) : Nat :=
  countFieldsAux s.toList false

/-- Go `map[string]int` lookup, for maps whose keys are all
single-rune strings (`string(r)`), embedded keyed by the rune. -/
def lookupFreq (m : List (Char × Nat)) (c : Char) : Option Nat :=
  match m with
  | [] => none
  | (k, v) :: rest => if k = c then some v else lookupFreq rest c

/-- `freqMap[string(r)]++` on the Go map, embedded on the association
list: increment in place if the key is present, otherwise append the
key with count 1. -/
def insertFreq (m : List (Char × Nat)) (c : Char) : List (Char × Nat) :=
  match m with
  | [] => [(c, 1)]
  | (k, v) :: rest => if k = c then (k, v + 1) :: rest else (k, v) :: insertFreq rest c

/-- Embeds `buildCharacterFrequencyMap` (main.go lines 304–312): iterate
the runes of `strings.ToLower(s)`, skipping space, tab and newline, and
count occurrences per rune.  The Go map keys are the single-rune strings
`string(r)`; the embedding keys the map by the rune itself. -/
def buildCharacterFrequencyMap (s : String) : List (Char × Nat) :=
  (lowerList s).foldl (fun m r => if keepChar r then insertFreq m r else m) []

/-- The occurrence count the stored frequency map reports for a rune
(0 when the key is absent, which the Go code never stores). -/
def freqCount (s : String) (c : Char) : Nat :=
  (lookupFreq (buildCharacterFrequencyMap s) c).getD 0

/-- The key list of an embedded Go map. -/
def keysOf (m : List (Char × Nat)) : List Char :=
  m.map Prod.fst

/-! ## SHA-256 (`calculateSHA256`, main.go lines 298–301)

The Go code computes `sha256.Sum256([]byte(s))` and renders it with
`fmt.Sprintf("%x", hash)`.  The FIPS 180-4 SHA-256 function is embedded
here over `Nat` with explicit reduction modulo `2^32`, over the UTF-8
byte encoding of the string, and the rendering as lowercase hex. -/

/-- Reduce a word modulo `2^32`. -/
def w32 (n : Nat) : Nat := n % 4294967296

/-- 32-bit right rotation. -/
def rotr32 (n x : Nat) : Nat :=
  w32 ((x >>> n) ||| (x <<< (32 - n)))

def shaCh (x y z : Nat) : Nat := (x &&& y) ^^^ ((x ^^^ 4294967295) &&& z)

def shaMaj (x y z : Nat) : Nat := (x &&& y) ^^^ (x &&& z) ^^^ (y &&& z)

def bigSigma0 (x : Nat) : Nat := rotr32 2 x ^^^ rotr32 13 x ^^^ rotr32 22 x

def bigSigma1 (x : Nat) : Nat := rotr32 6 x ^^^ rotr32 11 x ^^^ rotr32 25 x

def smallSigma0 (x : Nat) : Nat := rotr32 7 x ^^^ rotr32 18 x ^^^ (x >>> 3)

def smallSigma1 (x : Nat) : Nat := rotr32 17 x ^^^ rotr32 19 x ^^^ (x >>> 10)

/-- The SHA-256 round constants (FIPS 180-4, section 4.2.2), written
in decimal. -/
def shaK : List Nat :=
  [1116352408, 1899447441, 3049323471, 3921009573,
   961987163, 1508970993, 2453635748, 2870763221,
   3624381080, 310598401, 607225278, 1426881987,
   1925078388, 2162078206, 2614888103, 3248222580,
   3835390401, 4022224774, 264347078, 604807628,
   770255983, 1249150122, 1555081692, 1996064986,
   2554220882, 2821834349, 2952996808, 3210313671,
   3336571891, 3584528711, 113926993, 338241895,
   666307205, 773529912, 1294757372, 1396182291,
   1695183700, 1986661051, 2177026350, 2456956037,
   2730485921, 2820302411, 3259730800, 3345764771,
   3516065817, 3600352804, 4094571909, 275423344,
   430227734, 506948616, 659060556, 883997877,
   958139571, 1322822218, 1537002063, 1747873779,
   1955562222, 2024104815, 2227730452, 2361852424,
   2428436474, 2756734187, 3204031479, 3329325298]

/-- SHA-256 working state: the eight 32-bit words. -/
structure SHAState where
  a : Nat
  b : Nat
  c : Nat
  d : Nat
  e : Nat
  f : Nat
  g : Nat
  h : Nat
deriving DecidableEq

/-- The SHA-256 initial hash value (FIPS 180-4, section 5.3.3),
written in decimal. -/
def shaH0 : SHAState :=
  ⟨1779033703, 3144134277, 1013904242, 2773480762, 1359893119, 2600822924, 528734635, 1541459225⟩

/-- One SHA-256 round. -/
def shaRound (s : SHAState) (kw : Nat × Nat) : SHAState :=
  let t1 := w32 (s.h + bigSigma1 s.e + shaCh s.e s.f s.g + kw.1 + kw.2)
  let t2 := w32 (bigSigma0 s.a + shaMaj s.a s.b s.c)
  ⟨w32 (t1 + t2), s.a, s.b, s.c, w32 (s.d + t1), s.e, s.f, s.g⟩

/-- UTF-8 encoding of a single code point, the byte encoding Go's
`[]byte(s)` produces. -/
def utf8Encode (c : Char) : List Nat :=
  let n := c.toNat
  if n < 0x80 then [n]
  else if n < 0x800 then [0xC0 + n / 64, 0x80 + n % 64]
  else if n < 0x10000 then [0xE0 + n / 4096, 0x80 + (n / 64) % 64, 0x80 + n % 64]
  else [0xF0 + n / 262144, 0x80 + (n / 4096) % 64, 0x80 + (n / 64) % 64, 0x80 + n % 64]

/-- The UTF-8 bytes of a string. -/
def strBytes (s : String) : List Nat :=
  (s.toList.map utf8Encode).flatten

/-- Big-endian 8-byte rendering of the message bit length. -/
def be64 (n : Nat) : List Nat :=
  [(n >>> 56) % 256, (n >>> 48) % 256, (n >>> 40) % 256, (n >>> 32) % 256,
   (n >>> 24) % 256, (n >>> 16) % 256, (n >>> 8) % 256, n % 256]

/-- SHA-256 message padding: a `0x80` byte, zero bytes up to 56 mod 64,
then the bit length in 8 big-endian bytes. -/
def padMessage (msg : List Nat) : List Nat :=
  let z := (119 - (msg.length % 64)) % 64
  msg ++ [0x80] ++ List.replicate z 0 ++ be64 (msg.length * 8)

/-- Split a byte list into 64-byte blocks.  The structural `fuel`
argument only bounds the number of blocks; the byte count used by
`toBlocks` always suffices, keeping the definition kernel-reducible. -/
def toBlocksF : Nat → List Nat → List (List Nat)
  | 0, _ => []
  | fuel + 1, l => if l.isEmpty then [] else l.take 64 :: toBlocksF fuel (l.drop 64)

/-- Split the padded message into 64-byte blocks. -/
def toBlocks (l : List Nat) : List (List Nat) :=
  toBlocksF l.length l

/-- The sixteen big-endian 32-bit words of one 64-byte block. -/
def blockWords (block : List Nat) : List Nat :=
  (List.range 16).map fun i =>
    block.getD (4 * i) 0 * 16777216 + block.getD (4 * i + 1) 0 * 65536 +
    block.getD (4 * i + 2) 0 * 256 + block.getD (4 * i + 3) 0

/-- Extend the sixteen message words to the 64-entry message schedule. -/
def extendSchedule (ws : List Nat) : List Nat :=
  (List.range 48).foldl
    (fun a i =>
      let t := i + 16
      a ++ [w32 (smallSigma1 (a.getD (t - 2) 0) + a.getD (t - 7) 0 +
                 smallSigma0 (a.getD (t - 15) 0) + a.getD (t - 16) 0)])
    ws

/-- Process one 64-byte block: 64 rounds, then add the previous state. -/
def processBlock (H : SHAState) (block : List Nat) : SHAState :=
  let W := extendSchedule (blockWords block)
  let s := (shaK.zip W).foldl shaRound H
  ⟨w32 (H.a + s.a), w32 (H.b + s.b), w32 (H.c + s.c), w32 (H.d + s.d),
   w32 (H.e + s.e), w32 (H.f + s.f), w32 (H.g + s.g), w32 (H.h + s.h)⟩

/-- Big-endian 4-byte rendering of a 32-bit word. -/
def be32 (n : Nat) : List Nat :=
  [(n >>> 24) % 256, (n >>> 16) % 256, (n >>> 8) % 256, n % 256]

/-- The 32 bytes of the SHA-256 digest of a string. -/
def shaBytes (s : String) : List Nat :=
  let fin := (toBlocks (padMessage (strBytes s))).foldl processBlock shaH0
  be32 fin.a ++ be32 fin.b ++ be32 fin.c ++ be32 fin.d ++
  be32 fin.e ++ be32 fin.f ++ be32 fin.g ++ be32 fin.h

/-- The sixteen lowercase hex digit characters, in value order. -/
def hexChars : List Char :=
  "0123456789abcdef".toList

def hexDigit (n : Nat) : Char :=
  hexChars.getD (n % 16) '0'

/-- The two lowercase hex characters of one byte, the rendering
`fmt.Sprintf("%x", ...)` uses per byte. -/
def byteHex (b : Nat) : List Char :=
  [hexDigit (b / 16), hexDigit b]

/-- Embeds `calculateSHA256` (main.go lines 298–301):
`fmt.Sprintf("%x", sha256.Sum256([]byte(s)))`. -/
def calculateSHA256 (s : String) : String :=
  ⟨((shaBytes s).map byteHex).flatten⟩

/-! ## Data model and analyzer (`analyzeString`, main.go lines 248–264) -/

/-- Embeds `StringProperties` (main.go lines 17–24).  The Go
`map[string]int` frequency map, whose keys are single-rune strings, is
embedded as a rune-keyed association list in first-insertion order. -/
structure StringProperties where
  length : Nat
  isPalindrome : Bool
  uniqueCharacters : Nat
  wordCount : Nat
  sha256Hash : String
  characterFrequencyMap : List (Char × Nat)
deriving DecidableEq

/-- Embeds `AnalyzedString` (main.go lines 27–32); `CreatedAt` is an
abstract timestamp. -/
structure AnalyzedString where
  id : String
  value : String
  properties : StringProperties
  createdAt : Nat
deriving DecidableEq

/-- Embeds `analyzeString` (main.go lines 248–264). -/
def analyzeString (value : String) : StringProperties :=
  { length := value.toList.length
    isPalindrome := checkPalindrome value
    uniqueCharacters := countUniqueCharacters value
    wordCount := countWords value
    sha256Hash := calculateSHA256 value
    characterFrequencyMap := buildCharacterFrequencyMap value }

/-! ## Store operations (main.go lines 79–245)

The Go store is the package-level `map[string]*AnalyzedString` keyed by
the content hash.  It is embedded as the list of records in insertion
order; map lookup is lookup by the `id` field (every stored record's
`id` is the key it was stored under). -/

/-- Outcome of `createString` after request binding: either the created
record or the 409-duplicate rejection. -/
inductive CreateResult where
  | created (r : AnalyzedString)
  | duplicate
deriving DecidableEq

/-- Embeds the core of `createString` (main.go lines 94–113): analyze,
look the hash up, reject duplicates without mutating, otherwise store
the new record.  `now` is the `time.Now().UTC()` value, supplied by the
caller here so that the operation is a pure state transition. -/
def createString (store : List AnalyzedString) (value : String) (now : Nat) :
    List AnalyzedString × CreateResult :=
  let props := analyzeString value
  let hash := props.sha256Hash
  if store.any (fun r => r.id == hash) then (store, .duplicate)
  else
    let analyzed : AnalyzedString := ⟨hash, value, props, now⟩
    (store ++ [analyzed], .created analyzed)

/-- Embeds the core of `deleteString` (main.go lines 229–245): hash the
raw value, 404 (`false`) if absent, otherwise remove that entry.  The
returned Bool is `true` when the delete succeeded. -/
def deleteString (store : List AnalyzedString) (value : String) :
    List AnalyzedString × Bool :=
  let hash := calculateSHA256 value
  if store.any (fun r => r.id == hash) then
    (store.filter (fun r => r.id ≠ hash), true)
  else (store, false)

/-- Embeds the core of `getString` (main.go lines 117–131): hash the raw
value and look it up; `none` is the 404 case. -/
def getString (store : List AnalyzedString) (value : String) : Option AnalyzedString :=
  store.find? (fun r => r.id == calculateSHA256 value)

/-- Non-decreasing in `createdAt`: the postcondition of the
`sort.Slice(results, ...CreatedAt.Before...)` call. -/
def sortedByCreatedAt (l : List AnalyzedString) : Prop :=
  List.Chain' (fun a b => a.createdAt ≤ b.createdAt) l

/-- Embeds the enumeration of `getAllStrings` with no filters
(main.go lines 142–153) as a relation between the store contents and an
admissible response.  Two sources of nondeterminism in the Go code make
this a relation rather than a function: `for ... range` over a Go map
visits entries in an unspecified (deliberately randomized) order, so
every permutation of the contents is an admissible iteration sequence;
and `sort.Slice` is documented as not stable, so it guarantees only
that its result is some reordering that is non-decreasing under the
comparator.  In particular an iteration sequence that is already
non-decreasing in `createdAt` is returned unchanged by the sort, so
every non-decreasing permutation of the contents is a reachable output. -/
def getAllStringsRel (store out : List AnalyzedString) : Prop :=
  out.Perm store ∧ sortedByCreatedAt out

/-! ## Filter engine (`matchesFilters`, main.go lines 315–340) -/

/-- Embeds `FilterParams` (main.go lines 40–46): five optional
predicates.  The two length bounds and the word count are Go `int`s
(they can be negative, e.g. `max_length = -1` from the natural-language
path), so they are embedded as `Int`. -/
structure FilterParams where
  isPalindrome : Option Bool
  minLength : Option Int
  maxLength : Option Int
  wordCount : Option Int
  containsCharacter : Option String
deriving DecidableEq

/-- The `FilterParams` with every field absent. -/
def emptyFilters : FilterParams :=
  ⟨none, none, none, none, none⟩

/-- The `containsCharacter` test of `matchesFilters`:
`strings.ToLower` the parameter and test key membership in the stored
frequency map.  The Go map keys are exactly the single-rune strings
`string(r)`, so a parameter matches a key iff its lowering is a single
rune that is present. -/
def containsKeyStr (m : List (Char × Nat)) (param : String) : Bool :=
  match (param.toList.map goToLower) with
  | [c] => (lookupFreq m c).isSome
  | _ => false

/-- Embeds `matchesFilters` (main.go lines 315–340): each present
predicate can veto the record; otherwise it matches. -/
def matchesFilters (analyzed : AnalyzedString) (params : FilterParams) : Bool :=
  (match params.isPalindrome with
   | none => true
   | some b => analyzed.properties.isPalindrome == b) &&
  (match params.minLength with
   | none => true
   | some n => !((analyzed.properties.length : Int) < n)) &&
  (match params.maxLength with
   | none => true
   | some n => !((n : Int) < (analyzed.properties.length : Int))) &&
  (match params.wordCount with
   | none => true
   | some n => (analyzed.properties.wordCount : Int) == n) &&
  (match params.containsCharacter with
   | none => true
   | some c => containsKeyStr analyzed.properties.characterFrequencyMap c)

/-! ## Natural-language query translator
(`parseNaturalLanguageQuery`, main.go lines 343–395)

`strings.Contains` and the two `regexp` searches operate on the bytes of
`strings.ToLower(query)`; every pattern is pure ASCII, and in UTF-8 an
ASCII byte sequence occurs iff the corresponding code point sequence
occurs, so the searches are embedded over the code point list. -/

/-- Bool list prefix test (Go byte-wise prefix comparison on runes). -/
def startsWithCl : List Char → List Char → Bool
  | [], _ => true
  | _ :: _, [] => false
  | p :: ps, c :: cs => p = c && startsWithCl ps cs

/-- Embeds `strings.Contains l pat` over rune lists. -/
def hasSubstr (l pat : List Char) : Bool :=
  if startsWithCl pat l then true
  else
    match l with
    | [] => false
    | _ :: rest => hasSubstr rest pat

/-- The mathematical decimal value of a digit run; used to state the
range condition under which the `Sscanf` parse below succeeds. -/
def natOfDigits (ds : List Char) : Nat :=
  ds.foldl (fun n c => n * 10 + (c.toNat - 48)) 0

/-- Embeds `regexp.FindStringSubmatch` for the patterns
`longer than (\d+)` and `shorter than (\d+)`: the leftmost position
where the literal prefix is followed by at least one digit wins, the
greedy `\d+` captures the maximal digit run there, and the capture
(`matches[1]`) is returned. -/
def scanCapture (pat : List Char) : List Char → Option (List Char)
  | [] => none
  | l@(_ :: rest) =>
    if startsWithCl pat l then
      let ds := (l.drop pat.length).takeWhile Char.isDigit
      if ds.isEmpty then scanCapture pat rest else some ds
    else scanCapture pat rest

/-- Embeds `x := 0; fmt.Sscanf(ds, "%d", &x)` on a digit-run capture.
Go parses the decimal into the 64-bit `int`; when the value exceeds
`math.MaxInt64 = 2^63 - 1`, `strconv.ParseInt` reports a range error
and `Sscanf` returns it before assigning the target — the code
discards the returned error — so the variable keeps its zero
initialization. -/
def sscanfDecimal (ds : List Char) : Nat :=
  if natOfDigits ds < 9223372036854775808 then natOfDigits ds else 0

def longerPat : List Char := "longer than ".toList

def shorterPat : List Char := "shorter than ".toList

/-- A lowercase ASCII letter, the class `[a-z]` of the character
pattern. -/
def isLowerAlpha (c : Char) : Bool :=
  'a' ≤ c ∧ c ≤ 'z'

/-- The tail `'?([a-z])'?` of the character pattern at a given point:
an optional quote, then the captured letter (the trailing optional
quote never affects the match). -/
def tryTail : List Char → Option Char
  | [] => none
  | c :: rest =>
    if c = '\'' then
      match rest with
      | [] => none
      | d :: _ => if isLowerAlpha d then some d else none
    else if isLowerAlpha c then some c else none

/-- After `(?:contain|with) ` the regexp tries the optional group
`(?:the |letter |character )?` greedily — each alternative in order and
then the empty match — backtracking into the tail.  The three
alternatives start with distinct letters so at most one is present. -/
def tryAfterKw (l : List Char) : Option Char :=
  (if startsWithCl "the ".toList l then tryTail (l.drop 4) else none) <|>
  (if startsWithCl "letter ".toList l then tryTail (l.drop 7) else none) <|>
  (if startsWithCl "character ".toList l then tryTail (l.drop 10) else none) <|>
  tryTail l

/-- A match of the character pattern anchored at the current position:
the keyword alternation `(?:contain|with)` followed by a space, then
the optional word and the captured letter. -/
def tryCharAt (l : List Char) : Option Char :=
  if startsWithCl "contain ".toList l then tryAfterKw (l.drop 8)
  else if startsWithCl "with ".toList l then tryAfterKw (l.drop 5)
  else none

/-- Embeds `regexp.FindStringSubmatch` for the pattern
`(?:contain|with) (?:the |letter |character )?'?([a-z])'?`: the leftmost
anchored match wins. -/
def findCharPattern : List Char → Option Char
  | [] => none
  | l@(_ :: rest) =>
    match tryCharAt l with
    | some c => some c
    | none => findCharPattern rest

/-- The rune list of `lowerQuery := strings.ToLower(query)`. -/
def lowerQ (q : String) : List Char :=
  q.toList.map goToLower

/-- Embeds the filter construction of `parseNaturalLanguageQuery`
(main.go lines 343–388) together with `convertParsedFiltersToParams`
(main.go lines 398–422), which is an identity on the typed view of the
`map[string]interface{}`.  Each field holds the final value of the
corresponding map key: the word-count rules and the two vowel rules are
`if`/`else if` chains (first matching branch wins within the chain),
and the vowel chain runs after — and therefore overwrites — the
character-pattern rule. -/
def parseFilters (q : String) : FilterParams :=
  let lq := lowerQ q
  { wordCount :=
      if hasSubstr lq "single word".toList then some 1
      else if hasSubstr lq "two word".toList || hasSubstr lq "2 word".toList then some 2
      else if hasSubstr lq "three word".toList || hasSubstr lq "3 word".toList then some 3
      else none
    isPalindrome :=
      if hasSubstr lq "palindrom".toList then some true else none
    minLength :=
      match scanCapture longerPat lq with
      | some ds => some ((sscanfDecimal ds : Int) + 1)
      | none => none
    maxLength :=
      match scanCapture shorterPat lq with
      | some ds => some ((sscanfDecimal ds : Int) - 1)
      | none => none
    containsCharacter :=
      if hasSubstr lq "first vowel".toList then some "a"
      else if hasSubstr lq "last vowel".toList then some "u"
      else
        match findCharPattern lq with
        | some c => some (String.singleton c)
        | none => none }

/-- Embeds the error path of `parseNaturalLanguageQuery` (main.go lines
389–394): if the filter map stayed empty the translation fails (`none`
is the ParseError).  Every rule stores a `some` value, so the map is
empty iff every embedded field is `none`. -/
def parseNaturalLanguageQuery (q : String) : Option FilterParams :=
  let f := parseFilters q
  if f = emptyFilters then none else some f

/-- Stated from the spec's words for claim C2 (not an embedding of the
Go code): the nine recognized rules are checked INDEPENDENTLY, applied
in the declared order, and a later match for a filter key overwrites an
earlier value for that key ("last match wins").  The rule order is the
spec's: the three word-count rules, the palindrome stem, the two length
patterns, the character pattern, then the two vowel substrings. -/
def parseSpecLastWins (q : String) : FilterParams :=
  let lq := lowerQ q
  let f0 := emptyFilters
  let f1 := if hasSubstr lq "single word".toList then { f0 with wordCount := some 1 } else f0
  let f2 := if hasSubstr lq "two word".toList || hasSubstr lq "2 word".toList then
      { f1 with wordCount := some 2 } else f1
  let f3 := if hasSubstr lq "three word".toList || hasSubstr lq "3 word".toList then
      { f2 with wordCount := some 3 } else f2
  let f4 := if hasSubstr lq "palindrom".toList then { f3 with isPalindrome := some true } else f3
  let f5 := match scanCapture longerPat lq with
    | some ds => { f4 with minLength := some ((sscanfDecimal ds : Int) + 1) }
    | none => f4
  let f6 := match scanCapture shorterPat lq with
    | some ds => { f5 with maxLength := some ((sscanfDecimal ds : Int) - 1) }
    | none => f5
  let f7 := match findCharPattern lq with
    | some c => { f6 with containsCharacter := some (String.singleton c) }
    | none => f6
  let f8 := if hasSubstr lq "first vowel".toList then
      { f7 with containsCharacter := some "a" } else f7
  if hasSubstr lq "last vowel".toList then
      { f8 with containsCharacter := some "u" } else f8

/-- The spec-side disjunction "some recognized pattern matches somewhere
in the query", used to state claim C8. -/
def anyPatternMatches (q : String) : Bool :=
  let lq := lowerQ q
  hasSubstr lq "single word".toList || hasSubstr lq "two word".toList ||
  hasSubstr lq "2 word".toList || hasSubstr lq "three word".toList ||
  hasSubstr lq "3 word".toList || hasSubstr lq "palindrom".toList ||
  (scanCapture longerPat lq).isSome || (scanCapture shorterPat lq).isSome ||
  (findCharPattern lq).isSome || hasSubstr lq "first vowel".toList ||
  hasSubstr lq "last vowel".toList

/-! ## Lemmas: frequency map and character set folds -/

theorem keysOf_cons (k : Char) (v : Nat) (rest : List (Char × Nat)) :
    keysOf ((k, v) :: rest) = k :: keysOf rest := rfl

theorem lookupFreq_insertFreq (m : List (Char × Nat)) (c d : Char) :
    lookupFreq (insertFreq m c) d =
      if d = c then some ((lookupFreq m c).getD 0 + 1) else lookupFreq m d := by
  induction m with
  | nil =>
    by_cases h : d = c
    · subst h; simp [insertFreq, lookupFreq]
    · have h2 : ¬ c = d := fun hh => h hh.symm
      simp [insertFreq, lookupFreq, h, h2]
  | cons kv rest ih =>
    obtain ⟨k, v⟩ := kv
    by_cases hk : k = c
    · subst hk
      by_cases hd : d = k
      · subst hd; simp [insertFreq, lookupFreq]
      · have h2 : ¬ k = d := fun hh => hd hh.symm
        simp [insertFreq, lookupFreq, hd, h2]
    · by_cases hd : d = k
      · subst hd
        simp [insertFreq, lookupFreq, hk]
      · have hkd : ¬ k = d := fun h => hd h.symm
        simp [insertFreq, lookupFreq, hk, hd, hkd, ih]

theorem keysOf_insertFreq (m : List (Char × Nat)) (c : Char) :
    keysOf (insertFreq m c) = insertSet (keysOf m) c := by
  induction m with
  | nil => simp [insertFreq, keysOf, insertSet]
  | cons kv rest ih =>
    obtain ⟨k, v⟩ := kv
    by_cases hk : k = c
    · subst hk; simp [insertFreq, keysOf, insertSet]
    · have hck : ¬ c = k := fun h => hk h.symm
      have hkeys : keysOf (insertFreq ((k, v) :: rest) c) = k :: keysOf (insertFreq rest c) := by
        simp [insertFreq, if_neg hk, keysOf_cons, keysOf]
      rw [hkeys, ih, keysOf_cons]
      by_cases hc : c ∈ keysOf rest
      · simp [insertSet, List.mem_cons, hck, hc]
      · simp [insertSet, List.mem_cons, hck, hc]

theorem sum_insertFreq (m : List (Char × Nat)) (c : Char) :
    ((insertFreq m c).map Prod.snd).sum = (m.map Prod.snd).sum + 1 := by
  induction m with
  | nil => simp [insertFreq]
  | cons kv rest ih =>
    obtain ⟨k, v⟩ := kv
    by_cases hk : k = c <;> simp [insertFreq, hk, ih] <;> omega

theorem mem_insertSet (l : List Char) (a c : Char) :
    c ∈ insertSet l a ↔ c ∈ l ∨ c = a := by
  by_cases h : a ∈ l
  · simp only [insertSet, if_pos h]
    constructor
    · exact Or.inl
    · rintro (hc | rfl)
      · exact hc
      · exact h
  · simp [insertSet, if_neg h]

theorem nodup_insertSet (l : List Char) (a : Char) (h : l.Nodup) :
    (insertSet l a).Nodup := by
  by_cases ha : a ∈ l
  · simpa [insertSet, if_pos ha]
  · simp only [insertSet, if_neg ha]
    have hiff : (l ++ [a]).Nodup ↔ l.Nodup ∧ a ∉ l := by
      simp [List.nodup_append]
    exact hiff.2 ⟨h, ha⟩

theorem length_insertSet (l : List Char) (a : Char) :
    (insertSet l a).length = if a ∈ l then l.length else l.length + 1 := by
  by_cases ha : a ∈ l <;> simp [insertSet, ha]

theorem foldl_guard_filter {β : Type} (p : Char → Bool) (g : β → Char → β) :
    ∀ (l : List Char) (acc : β),
      l.foldl (fun m r => if p r then g m r else m) acc = (l.filter p).foldl g acc := by
  intro l
  induction l with
  | nil => intro acc; rfl
  | cons a rest ih =>
    intro acc
    by_cases hp : p a <;> simp [List.filter_cons, hp, ih]

theorem lookup_foldl_insertFreq :
    ∀ (l : List Char) (m : List (Char × Nat)) (c : Char),
      (lookupFreq (l.foldl insertFreq m) c).getD 0 =
        (lookupFreq m c).getD 0 + l.count c := by
  intro l
  induction l with
  | nil => intro m c; simp
  | cons a rest ih =>
    intro m c
    rw [List.foldl_cons, ih, lookupFreq_insertFreq]
    by_cases hc : c = a
    · subst hc
      simp [List.count_cons]
      omega
    · simp [hc, List.count_cons, fun h : a = c => hc h.symm]

theorem keysOf_foldl_insertFreq :
    ∀ (l : List Char) (m : List (Char × Nat)),
      keysOf (l.foldl insertFreq m) = l.foldl insertSet (keysOf m) := by
  intro l
  induction l with
  | nil => intro m; rfl
  | cons a rest ih =>
    intro m
    rw [List.foldl_cons, List.foldl_cons, ih, keysOf_insertFreq]

theorem mem_foldl_insertSet :
    ∀ (l acc : List Char) (c : Char),
      c ∈ l.foldl insertSet acc ↔ c ∈ acc ∨ c ∈ l := by
  intro l
  induction l with
  | nil => intro acc c; simp
  | cons a rest ih =>
    intro acc c
    rw [List.foldl_cons, ih, mem_insertSet]
    simp only [List.mem_cons]
    tauto

theorem nodup_foldl_insertSet :
    ∀ (l acc : List Char), acc.Nodup → (l.foldl insertSet acc).Nodup := by
  intro l
  induction l with
  | nil => intro acc h; exact h
  | cons a rest ih =>
    intro acc h
    exact ih _ (nodup_insertSet acc a h)

theorem sum_foldl_insertFreq :
    ∀ (l : List Char) (m : List (Char × Nat)),
      ((l.foldl insertFreq m).map Prod.snd).sum = (m.map Prod.snd).sum + l.length := by
  intro l
  induction l with
  | nil => intro m; simp
  | cons a rest ih =>
    intro m
    rw [List.foldl_cons, ih, sum_insertFreq]
    simp [Nat.add_assoc, Nat.add_comm 1]

/-- The list of runes both counting functions actually traverse: the
lowered string with space, tab and newline dropped. -/
def keptRunes (s : String) : List Char :=
  (lowerList s).filter keepChar

theorem buildCharacterFrequencyMap_eq (s : String) :
    buildCharacterFrequencyMap s = (keptRunes s).foldl insertFreq [] := by
  unfold buildCharacterFrequencyMap keptRunes
  exact foldl_guard_filter keepChar insertFreq (lowerList s) []

theorem countUniqueCharacters_eq (s : String) :
    countUniqueCharacters s = ((keptRunes s).foldl insertSet []).length := by
  unfold countUniqueCharacters keptRunes
  rw [foldl_guard_filter keepChar insertSet (lowerList s) []]

theorem freqCount_eq_count (s : String) (c : Char) :
    freqCount s c = (keptRunes s).count c := by
  unfold freqCount
  rw [buildCharacterFrequencyMap_eq, lookup_foldl_insertFreq]
  simp [lookupFreq]

theorem keysOf_build (s : String) :
    keysOf (buildCharacterFrequencyMap s) = (keptRunes s).foldl insertSet [] := by
  rw [buildCharacterFrequencyMap_eq, keysOf_foldl_insertFreq]
  rfl

/-- C4: `uniqueCharacters` and `characterFrequency` are both computed
over the case-folded string with exactly the three characters space,
horizontal tab and newline excluded (`keptRunes`), and no other
whitespace character excluded: the unique count is the number of
distinct remaining code points, the frequency map sends each remaining
code point to its occurrence count, a character is dropped exactly when
it is one of the three, and concretely the carriage return and the
no-break space are counted while the space is not. -/
theorem claim_C4_unique_and_frequency : ∀ s : String,
    countUniqueCharacters s = (keptRunes s).dedup.length ∧
    (∀ c : Char, freqCount s c = (keptRunes s).count c) ∧
    (∀ c : Char, keepChar c = false ↔ (c = ' ' ∨ c = '\t' ∨ c = '\n')) ∧
    freqCount "a\rb c" '\r' = 1 ∧
    freqCount "a b" ' ' = 1 ∧
    freqCount "a a" ' ' = 0 := by
  intro s
  refine ⟨?_, fun c => freqCount_eq_count s c, ?_, by decide, by decide, by decide⟩
  · rw [countUniqueCharacters_eq]
    have hS : ((keptRunes s).foldl insertSet []).Nodup :=
      nodup_foldl_insertSet (keptRunes s) [] List.nodup_nil
    have hperm : ((keptRunes s).foldl insertSet []).Perm (keptRunes s).dedup := by
      refine (List.perm_ext_iff_of_nodup hS (List.nodup_dedup (keptRunes s))).2 ?_
      intro a
      rw [mem_foldl_insertSet, List.mem_dedup]
      simp
    exact hperm.length_eq
  · intro c
    constructor
    · intro h
      by_contra hc
      push_neg at hc
      obtain ⟨h1, h2, h3⟩ := hc
      simp [keepChar, h1, h2, h3] at h
    · intro h
      rcases h with rfl | rfl | rfl <;> simp [keepChar]

/-- C10: the unique-character count equals the number of (pairwise
distinct) keys of the frequency map, and the sum of the frequency map's
values equals the number of code points of the case-folded string that
are not space, horizontal tab or newline — the two properties are views
of the same traversal. -/
theorem claim_C10_two_views : ∀ s : String,
    (keysOf (buildCharacterFrequencyMap s)).Nodup ∧
    countUniqueCharacters s = (buildCharacterFrequencyMap s).length ∧
    ((buildCharacterFrequencyMap s).map Prod.snd).sum =
      ((lowerList s).filter keepChar).length := by
  intro s
  refine ⟨?_, ?_, ?_⟩
  · rw [keysOf_build]
    exact nodup_foldl_insertSet (keptRunes s) [] List.nodup_nil
  · have h1 := countUniqueCharacters_eq s
    have h2 := keysOf_build s
    have h3 : (keysOf (buildCharacterFrequencyMap s)).length =
        (buildCharacterFrequencyMap s).length := List.length_map _ _
    rw [h1, ← h2, h3]
  · rw [buildCharacterFrequencyMap_eq, sum_foldl_insertFreq]
    simp [keptRunes]

/-! ## Lemmas: the two-pointer palindrome loop -/

theorem getD_reverse (l : List Char) (k : Nat) (hk : k < l.length) :
    l.reverse.getD k ' ' = l.getD (l.length - 1 - k) ' ' := by
  rw [List.getD_eq_getElem l.reverse ' ' (by simpa using hk),
      List.getD_eq_getElem l ' ' (by omega),
      List.getElem_reverse]

theorem palAux_iff :
    ∀ (m : Nat) (l : List Char) (i j : Nat), j - i ≤ 2 * m →
      (palAux m l i j = true ↔
        ∀ k, i ≤ k → k ≤ j → l.getD k ' ' = l.getD (i + j - k) ' ') := by
  intro m
  induction m with
  | zero =>
    intro l i j hm
    simp only [palAux]
    constructor
    · intro _ k hk1 hk2
      have : i + j - k = k := by omega
      rw [this]
    · intro _; trivial
  | succ m ih =>
    intro l i j hm
    by_cases h : i < j
    · simp only [palAux, if_pos h]
      by_cases heq : l.getD i ' ' = l.getD j ' '
      · have hne : ¬ l.getD i ' ' ≠ l.getD j ' ' := by simpa using heq
        rw [if_neg hne, ih l (i + 1) (j - 1) (by omega)]
        have hsum : (i + 1) + (j - 1) = i + j := by omega
        constructor
        · intro hinner k hk1 hk2
          by_cases hki : k = i
          · subst hki
            have : k + j - k = j := by omega
            rw [this]
            exact heq
          · by_cases hkj : k = j
            · subst hkj
              have : i + k - k = i := by omega
              rw [this]
              exact heq.symm
            · have h1 : i + 1 ≤ k := by omega
              have h2 : k ≤ j - 1 := by omega
              have := hinner k h1 h2
              rwa [hsum] at this
        · intro hfull k hk1 hk2
          rw [hsum]
          exact hfull k (by omega) (by omega)
      · rw [if_pos (by simpa using heq)]
        constructor
        · intro habs
          exact absurd habs (by simp)
        · intro hfull
          have := hfull i le_rfl (le_of_lt h)
          have hj : i + j - i = j := by omega
          rw [hj] at this
          exact absurd this heq
    · simp only [palAux, if_neg h]
      constructor
      · intro _ k hk1 hk2
        have : i + j - k = k := by omega
        rw [this]
      · intro _; trivial

theorem palAux_eq_reverse (l : List Char) :
    (palAux l.length l 0 (l.length - 1) = true) ↔ l = l.reverse := by
  rw [palAux_iff l.length l 0 (l.length - 1) (by omega)]
  constructor
  · intro h
    refine List.ext_getElem (by simp) ?_
    intro n h1 h2
    have hn : n ≤ l.length - 1 := by omega
    have hcmp := h n (Nat.zero_le n) hn
    have hlt : 0 + (l.length - 1) - n < l.length := by omega
    rw [List.getD_eq_getElem l ' ' h1, List.getD_eq_getElem l ' ' hlt] at hcmp
    rw [List.getElem_reverse]
    convert hcmp using 2
    omega
  · intro h k hk1 hk2
    by_cases hl : l = []
    · subst hl
      simp
    · have hlen : 0 < l.length := List.length_pos.2 hl
      have hk : k < l.length := by omega
      have step1 : l.getD k ' ' = l.reverse.getD k ' ' := by rw [← h]
      rw [step1, getD_reverse l k hk]
      have : l.length - 1 - k = 0 + (l.length - 1) - k := by omega
      rw [this]

theorem checkPalindrome_iff (s : String) :
    checkPalindrome s = true ↔ cleanedRunes s = (cleanedRunes s).reverse :=
  palAux_eq_reverse (cleanedRunes s)

/-- C1 counterexample: the claim reads "removing every run of
whitespace characters (any whitespace)".  On the string `ab·a` — where `·` stands for the third
code point is the no-break space U+00A0, a Unicode whitespace character
— the code keeps the U+00A0 (Go's regexp `\s` is only `[\t\n\f\r ]`)
and answers `false`, while the claim's strip-any-whitespace comparison
reduces the string to `aba` and demands `true`; the claimed equivalence
is therefore false at this input. -/
theorem claim_C1_counterexample :
    checkPalindrome "ab\u00A0a" = false ∧ specPalindromeAllWS "ab\u00A0a" = true := by
  constructor
  · have h := checkPalindrome_iff "ab\u00A0a"
    cases hb : checkPalindrome "ab\u00A0a" with
    | false => rfl
    | true =>
      have := h.mp hb
      exact absurd this (by decide)
  · decide

/-- C1 (amended): `analyze(s).isPalindrome` is true iff the sequence
obtained from `s` by removing every run of the whitespace characters
tab, newline, form feed, carriage return and space (the class matched
by Go's regexp `\s` — not every Unicode whitespace) and then
case-folding reads identically forwards and backwards under code-point
comparison; in particular a string that is empty after stripping is a
palindrome, and the spec's concrete examples hold. -/
theorem claim_C1_amended :
    (∀ s : String, checkPalindrome s = true ↔
      cleanedRunes s = (cleanedRunes s).reverse) ∧
    checkPalindrome "racecar" = true ∧
    checkPalindrome "Race Car" = true ∧
    checkPalindrome "hello" = false ∧
    checkPalindrome "" = true := by
  refine ⟨checkPalindrome_iff, by decide, by decide, by decide, by decide⟩

/-- C6: `matchesFilters` returns true iff every present predicate holds
of the record — palindrome equality, `minLength ≤ length`,
`length ≤ maxLength`, exact word count, and the case-folded
`containsCharacter` present as a key of the stored frequency map — so
present predicates combine by logical AND and the empty filter set
matches every record.  Totality over all record/filter pairs holds by
construction (the embedding is a total Lean function, as is the Go
code, which only reads fields). -/
theorem claim_C6_matches_iff :
    (∀ (a : AnalyzedString) (p : FilterParams),
      matchesFilters a p = true ↔
        ((∀ b, p.isPalindrome = some b → a.properties.isPalindrome = b) ∧
         (∀ n, p.minLength = some n → n ≤ (a.properties.length : Int)) ∧
         (∀ n, p.maxLength = some n → (a.properties.length : Int) ≤ n) ∧
         (∀ n, p.wordCount = some n → (a.properties.wordCount : Int) = n) ∧
         (∀ c, p.containsCharacter = some c →
            containsKeyStr a.properties.characterFrequencyMap c = true))) ∧
    (∀ a : AnalyzedString, matchesFilters a emptyFilters = true) := by
  constructor
  · intro a p
    obtain ⟨ip, mn, mx, wc, cc⟩ := p
    cases ip <;> cases mn <;> cases mx <;> cases wc <;> cases cc <;>
      simp [matchesFilters, Int.not_lt, and_assoc]
  · intro a
    rfl

/-- C7 counterexample: the claim quantifies over every decimal integer
N, but for a capture whose value exceeds `math.MaxInt64` the
`fmt.Sscanf` parse fails with a range error that the code discards,
leaving the scanned variable at its zero initialization: the query
"strings longer than 99999999999999999999" (N = 10^20 - 1 > 2^63 - 1)
produces `minLength = 0 + 1 = 1`, not N + 1, and the matching
"shorter than" query produces `maxLength = -1`, not N - 1. -/
theorem claim_C7_counterexample :
    (parseFilters "strings longer than 99999999999999999999").minLength = some 1 ∧
    (1 : Int) ≠ (99999999999999999999 : Int) + 1 ∧
    (parseFilters "strings shorter than 99999999999999999999").maxLength = some (-1) ∧
    (-1 : Int) ≠ (99999999999999999999 : Int) - 1 := by
  refine ⟨by decide, by decide, by decide, by decide⟩

/-- C7 (amended): for every query whose leftmost `longer than (\d+)`
capture has decimal value N below 2^63 (the values `fmt.Sscanf` can
store in the 64-bit `int`), the translator produces `minLength = N + 1`
(strictly greater than N), and symmetrically a `shorter than (\d+)`
capture produces `maxLength = N - 1`; for a capture at or above 2^63
the discarded Sscanf range error leaves the scanned variable 0, so the
translator produces `minLength = 1` (respectively `maxLength = -1`);
concretely `translate("strings longer than 10")` is exactly
`{minLength: 11}`. -/
theorem claim_C7_amended :
    (∀ (q : String) (ds : List Char),
      scanCapture longerPat (lowerQ q) = some ds →
      natOfDigits ds < 9223372036854775808 →
      (parseFilters q).minLength = some ((natOfDigits ds : Int) + 1)) ∧
    (∀ (q : String) (ds : List Char),
      scanCapture longerPat (lowerQ q) = some ds →
      ¬ natOfDigits ds < 9223372036854775808 →
      (parseFilters q).minLength = some 1) ∧
    (∀ (q : String) (ds : List Char),
      scanCapture shorterPat (lowerQ q) = some ds →
      natOfDigits ds < 9223372036854775808 →
      (parseFilters q).maxLength = some ((natOfDigits ds : Int) - 1)) ∧
    (∀ (q : String) (ds : List Char),
      scanCapture shorterPat (lowerQ q) = some ds →
      ¬ natOfDigits ds < 9223372036854775808 →
      (parseFilters q).maxLength = some (-1)) ∧
    parseNaturalLanguageQuery "strings longer than 10" =
      some { isPalindrome := none, minLength := some 11, maxLength := none,
             wordCount := none, containsCharacter := none } := by
  refine ⟨?_, ?_, ?_, ?_, by decide⟩
  · intro q ds h hlt
    simp [parseFilters, h, sscanfDecimal, hlt]
  · intro q ds h hlt
    simp [parseFilters, h, sscanfDecimal, hlt]
  · intro q ds h hlt
    simp [parseFilters, h, sscanfDecimal, hlt]
  · intro q ds h hlt
    simp [parseFilters, h, sscanfDecimal, hlt]

/-- Witness for C7 (amended) at the spec's concrete query. -/
theorem claim_C7_witness :
    scanCapture longerPat (lowerQ "strings longer than 10") = some ("10".toList) ∧
    natOfDigits ("10".toList) < 9223372036854775808 ∧
    (parseFilters "strings longer than 10").minLength =
      some ((natOfDigits ("10".toList) : Int) + 1) :=
  ⟨by decide, by decide,
   claim_C7_amended.1 "strings longer than 10" ("10".toList) (by decide) (by decide)⟩

theorem pf_isPalindrome_none (q : String) :
    (parseFilters q).isPalindrome = none ↔
      hasSubstr (lowerQ q) "palindrom".toList = false := by
  cases h : hasSubstr (lowerQ q) "palindrom".toList <;>
    simp only [parseFilters, h] <;> simp

theorem pf_minLength_none (q : String) :
    (parseFilters q).minLength = none ↔
      (scanCapture longerPat (lowerQ q)).isSome = false := by
  cases h : scanCapture longerPat (lowerQ q) <;> simp [parseFilters, h]

theorem pf_maxLength_none (q : String) :
    (parseFilters q).maxLength = none ↔
      (scanCapture shorterPat (lowerQ q)).isSome = false := by
  cases h : scanCapture shorterPat (lowerQ q) <;> simp [parseFilters, h]

theorem pf_wordCount_none (q : String) :
    (parseFilters q).wordCount = none ↔
      (hasSubstr (lowerQ q) "single word".toList = false ∧
       hasSubstr (lowerQ q) "two word".toList = false ∧
       hasSubstr (lowerQ q) "2 word".toList = false ∧
       hasSubstr (lowerQ q) "three word".toList = false ∧
       hasSubstr (lowerQ q) "3 word".toList = false) := by
  cases h1 : hasSubstr (lowerQ q) "single word".toList <;>
    cases h2 : hasSubstr (lowerQ q) "two word".toList <;>
      cases h3 : hasSubstr (lowerQ q) "2 word".toList <;>
        cases h4 : hasSubstr (lowerQ q) "three word".toList <;>
          cases h5 : hasSubstr (lowerQ q) "3 word".toList <;>
            simp only [parseFilters, h1, h2, h3, h4, h5] <;> simp

theorem pf_containsCharacter_none (q : String) :
    (parseFilters q).containsCharacter = none ↔
      (hasSubstr (lowerQ q) "first vowel".toList = false ∧
       hasSubstr (lowerQ q) "last vowel".toList = false ∧
       (findCharPattern (lowerQ q)).isSome = false) := by
  cases h1 : hasSubstr (lowerQ q) "first vowel".toList <;>
    cases h2 : hasSubstr (lowerQ q) "last vowel".toList <;>
      cases h3 : findCharPattern (lowerQ q) <;>
        simp only [parseFilters, h1, h2, h3] <;> simp

theorem parseFilters_empty_iff (q : String) :
    parseFilters q = emptyFilters ↔ anyPatternMatches q = false := by
  have hfields : parseFilters q = emptyFilters ↔
      ((parseFilters q).isPalindrome = none ∧ (parseFilters q).minLength = none ∧
       (parseFilters q).maxLength = none ∧ (parseFilters q).wordCount = none ∧
       (parseFilters q).containsCharacter = none) := by
    rcases hpf : parseFilters q with ⟨ip, mn, mx, wc, cc⟩
    simp [emptyFilters]
  rw [hfields, pf_isPalindrome_none, pf_minLength_none, pf_maxLength_none,
    pf_wordCount_none, pf_containsCharacter_none]
  simp only [anyPatternMatches, Bool.or_eq_false_iff]
  tauto

/-- C8: translation fails with a ParseError (`none`) exactly when none
of the fixed-vocabulary patterns matches anywhere in the query; on a
failure no filters at all are produced (the `none` result carries
none), and concretely `translate("gibberish xyzzy")` fails. -/
theorem claim_C8_parse_error_iff :
    (∀ q : String, parseNaturalLanguageQuery q = none ↔ anyPatternMatches q = false) ∧
    parseNaturalLanguageQuery "gibberish xyzzy" = none := by
  refine ⟨?_, by decide⟩
  intro q
  have : parseNaturalLanguageQuery q = none ↔ parseFilters q = emptyFilters := by
    by_cases h : parseFilters q = emptyFilters <;> simp [parseNaturalLanguageQuery, h]
  rw [this, parseFilters_empty_iff]

/-- C2 counterexample: the query "single word two word" matches both the
"single word" rule and the "two word" rule, which target the same
filter key `wordCount`.  Under the claim ("the last rule evaluated in
the fixed declared order determines that key's value", the word-count
rules being the claimed example) the value would be 2, as the
spec-modelled last-match-wins translator computes; the code's
`if`/`else if` chain gives the FIRST matching rule priority and
produces 1. -/
theorem claim_C2_counterexample :
    (parseFilters "single word two word").wordCount = some 1 ∧
    (parseSpecLastWins "single word two word").wordCount = some 2 := by
  constructor <;> decide

/-- C2 (amended): the translator's rules may each contribute a filter
for DIFFERENT keys of the same result, and the vowel rules (declared
after the character-pattern rule as separate statements) overwrite the
character-pattern value; but within the word-count trio and within the
first-vowel/last-vowel pair the rules form `if`/`else if` chains, so
the FIRST matching rule in declared order — not the last — determines
that key's value. -/
theorem claim_C2_amended : ∀ q : String,
    (hasSubstr (lowerQ q) "single word".toList = true →
      (parseFilters q).wordCount = some 1) ∧
    (hasSubstr (lowerQ q) "single word".toList = false →
      (hasSubstr (lowerQ q) "two word".toList = true ∨
       hasSubstr (lowerQ q) "2 word".toList = true) →
      (parseFilters q).wordCount = some 2) ∧
    (hasSubstr (lowerQ q) "single word".toList = false →
      hasSubstr (lowerQ q) "two word".toList = false →
      hasSubstr (lowerQ q) "2 word".toList = false →
      (hasSubstr (lowerQ q) "three word".toList = true ∨
       hasSubstr (lowerQ q) "3 word".toList = true) →
      (parseFilters q).wordCount = some 3) ∧
    (hasSubstr (lowerQ q) "palindrom".toList = true →
      (parseFilters q).isPalindrome = some true) ∧
    (hasSubstr (lowerQ q) "first vowel".toList = true →
      (parseFilters q).containsCharacter = some "a") ∧
    (hasSubstr (lowerQ q) "first vowel".toList = false →
      hasSubstr (lowerQ q) "last vowel".toList = true →
      (parseFilters q).containsCharacter = some "u") ∧
    (∀ c : Char, hasSubstr (lowerQ q) "first vowel".toList = false →
      hasSubstr (lowerQ q) "last vowel".toList = false →
      findCharPattern (lowerQ q) = some c →
      (parseFilters q).containsCharacter = some (String.singleton c)) := by
  intro q
  refine ⟨?_, ?_, ?_, ?_, ?_, ?_, ?_⟩
  · intro h
    simp only [parseFilters, h]
    simp
  · intro h1 h2
    rcases h2 with h2 | h2 <;> simp only [parseFilters, h1, h2] <;> simp
  · intro h1 h2 h3 h4
    rcases h4 with h4 | h4 <;> simp only [parseFilters, h1, h2, h3, h4] <;> simp
  · intro h
    simp only [parseFilters, h]
    simp
  · intro h
    simp only [parseFilters, h]
    simp
  · intro h1 h2
    simp only [parseFilters, h1, h2]
    simp
  · intro c h1 h2 h3
    simp only [parseFilters, h1, h2, h3]
    simp

/-- Witness for C2 (amended) at the spec's concrete query: both the
word-count rule and the palindrome rule contribute to one result. -/
theorem claim_C2_witness :
    hasSubstr (lowerQ "single word palindromes") "single word".toList = true ∧
    (parseFilters "single word palindromes").wordCount = some 1 ∧
    (parseFilters "single word palindromes").isPalindrome = some true :=
  ⟨by decide,
   (claim_C2_amended "single word palindromes").1 (by decide),
   (claim_C2_amended "single word palindromes").2.2.2.1 (by decide)⟩

/-! ## Lemmas: store operations -/

theorem analyzeString_sha (v : String) :
    (analyzeString v).sha256Hash = calculateSHA256 v := rfl

theorem createString_of_present (store : List AnalyzedString) (v : String) (now : Nat)
    (h : store.any (fun r => r.id == calculateSHA256 v) = true) :
    createString store v now = (store, CreateResult.duplicate) := by
  simp only [createString, analyzeString_sha]
  rw [if_pos h]

theorem createString_hash_present (store : List AnalyzedString) (v : String) (now : Nat) :
    ((createString store v now).1).any (fun r => r.id == calculateSHA256 v) = true := by
  simp only [createString, analyzeString_sha]
  by_cases h : store.any (fun r => r.id == calculateSHA256 v) = true
  · rw [if_pos h]
    exact h
  · rw [if_neg h]
    simp [analyzeString_sha]

/-- C5: inserting a value whose content hash is already present fails
with the Duplicate outcome and performs no mutation (the returned store
is the input store, so contents and size are unchanged); in particular
the second of two inserts of the same value always reports Duplicate
and leaves the store of the first insert untouched. -/
theorem claim_C5_duplicate_insert :
    (∀ (store : List AnalyzedString) (v : String) (now : Nat),
      store.any (fun r => r.id == calculateSHA256 v) = true →
      createString store v now = (store, CreateResult.duplicate)) ∧
    (∀ (store : List AnalyzedString) (v : String) (now now2 : Nat),
      createString (createString store v now).1 v now2 =
        ((createString store v now).1, CreateResult.duplicate)) := by
  constructor
  · exact createString_of_present
  · intro store v now now2
    exact createString_of_present _ v now2 (createString_hash_present store v now)

/-- Witness for C5: a store already holding the record for "a" rejects
a second insert of "a" unchanged. -/
theorem claim_C5_witness :
    ([(⟨calculateSHA256 "a", "a", analyzeString "a", 0⟩ : AnalyzedString)].any
        (fun r => r.id == calculateSHA256 "a") = true) ∧
    createString [⟨calculateSHA256 "a", "a", analyzeString "a", 0⟩] "a" 1 =
      ([⟨calculateSHA256 "a", "a", analyzeString "a", 0⟩], CreateResult.duplicate) :=
  ⟨by decide,
   claim_C5_duplicate_insert.1 [⟨calculateSHA256 "a", "a", analyzeString "a", 0⟩] "a" 1
     (by decide)⟩

/-! ## Lemmas: digest format -/

theorem hexDigit_mem (n : Nat) : hexDigit n ∈ hexChars := by
  unfold hexDigit
  by_cases h : n % 16 < hexChars.length
  · rw [List.getD_eq_getElem hexChars '0' h]
    exact List.getElem_mem h
  · rw [List.getD_eq_default hexChars '0' (by omega)]
    decide

theorem hexRender_length (bs : List Nat) :
    ((bs.map byteHex).flatten).length = 2 * bs.length := by
  induction bs with
  | nil => rfl
  | cons b rest ih =>
    simp only [List.map_cons, List.flatten_cons, List.length_append, ih, byteHex]
    simp
    omega

theorem hexRender_mem (bs : List Nat) (c : Char)
    (hc : c ∈ (bs.map byteHex).flatten) : c ∈ hexChars := by
  induction bs with
  | nil => simp at hc
  | cons b rest ih =>
    simp only [List.map_cons, List.flatten_cons, List.mem_append] at hc
    rcases hc with hc | hc
    · simp only [byteHex, List.mem_cons, List.not_mem_nil, or_false] at hc
      rcases hc with h | h <;> exact h ▸ hexDigit_mem _
    · exact ih hc

theorem shaBytes_length (s : String) : (shaBytes s).length = 32 := by
  simp [shaBytes, be32]

theorem calculateSHA256_format (s : String) :
    (calculateSHA256 s).length = 64 ∧
    ∀ c ∈ (calculateSHA256 s).toList, c ∈ hexChars := by
  constructor
  · show (((shaBytes s).map byteHex).flatten).length = 64
    rw [hexRender_length, shaBytes_length]
  · intro c hc
    exact hexRender_mem (shaBytes s) c hc

/-- The hash invariant of the store: every record's `id` is the digest
of its `value`, and its stored `contentHash` property equals its `id`. -/
def storeHashInv (store : List AnalyzedString) : Prop :=
  ∀ r ∈ store, r.id = calculateSHA256 r.value ∧ r.properties.sha256Hash = r.id

/-- C9: `id == hash(value)` holds at all times — the empty store
satisfies the invariant and every operation preserves it; a created
record's id is the digest of its value and its `contentHash` property
equals its id; the digest is a deterministic pure function rendered as
64 lowercase hexadecimal characters (256-bit class), matching the FIPS
180-4 test vector; and re-analysis of the same value yields identical
properties (the analyzer is a pure function of the value). -/
theorem claim_C9_hash_invariant :
    storeHashInv [] ∧
    (∀ (store : List AnalyzedString) (v : String) (now : Nat),
      storeHashInv store → storeHashInv (createString store v now).1) ∧
    (∀ (store : List AnalyzedString) (v : String),
      storeHashInv store → storeHashInv (deleteString store v).1) ∧
    (∀ (store st2 : List AnalyzedString) (v : String) (now : Nat) (r : AnalyzedString),
      createString store v now = (st2, CreateResult.created r) →
      r.id = calculateSHA256 v ∧ r.properties.sha256Hash = r.id ∧
      r.value = v ∧ r.properties = analyzeString v) ∧
    (∀ s : String, (calculateSHA256 s).length = 64 ∧
      ∀ c ∈ (calculateSHA256 s).toList, c ∈ hexChars) ∧
    (∀ v : String, analyzeString v = analyzeString v) ∧
    calculateSHA256 "abc" =
      "ba7816bf8f01cfea414140de5dae2223b00361a396177a9cb410ff61f20015ad" := by
  refine ⟨?_, ?_, ?_, ?_, calculateSHA256_format, fun v => rfl, by decide⟩
  · intro r hr
    simp at hr
  · intro store v now hinv
    simp only [createString, analyzeString_sha]
    by_cases h : store.any (fun r => r.id == calculateSHA256 v) = true
    · rw [if_pos h]
      exact hinv
    · rw [if_neg h]
      intro r hr
      rcases List.mem_append.1 hr with hold | hnew
      · exact hinv r hold
      · simp only [List.mem_cons, List.not_mem_nil, or_false] at hnew
        subst hnew
        exact ⟨rfl, rfl⟩
  · intro store v hinv
    simp only [deleteString]
    by_cases h : store.any (fun r => r.id == calculateSHA256 v) = true
    · rw [if_pos h]
      intro r hr
      exact hinv r (List.mem_of_mem_filter hr)
    · rw [if_neg h]
      exact hinv
  · intro store st2 v now r hcr
    simp only [createString, analyzeString_sha] at hcr
    by_cases h : store.any (fun s => s.id == calculateSHA256 v) = true
    · rw [if_pos h] at hcr
      simp only [Prod.mk.injEq] at hcr
      exact absurd hcr.2 (by simp)
    · rw [if_neg h] at hcr
      simp only [Prod.mk.injEq, CreateResult.created.injEq] at hcr
      obtain ⟨-, hr⟩ := hcr
      subst hr
      exact ⟨rfl, rfl, rfl, rfl⟩

/-- Witness for C9: the preservation conjuncts applied at the empty
store and a concrete insert. -/
theorem claim_C9_witness :
    storeHashInv ((createString [] "radar" 0).1) :=
  claim_C9_hash_invariant.2.1 [] "radar" 0 (by simp [storeHashInv])

/-- Record inserted first in the tied-timestamp scenario. -/
def recTieB : AnalyzedString :=
  ⟨"idb", "b", ⟨1, true, 1, 1, "idb", [('b', 1)]⟩, 5⟩

/-- Record inserted second, with the same `createdAt` as `recTieB`. -/
def recTieA : AnalyzedString :=
  ⟨"ida", "a", ⟨1, true, 1, 1, "ida", [('a', 1)]⟩, 5⟩

/-- C3 counterexample: the store holds `recTieB` (inserted first) and
`recTieA` (inserted second) with EQUAL `createdAt`.  The output
`[recTieA, recTieB]` is an admissible result of the enumeration — it is
a permutation of the contents and non-decreasing in `createdAt`, and it
is reached from the map iteration order that visits `recTieA` first,
which the unstable sort returns unchanged — yet it is not the insertion
order: the code has no insertion-order tiebreaker (no sequence counter
exists; `sort.Slice` is not stable and Go map iteration order is
unspecified), so the claimed deterministic tie-break is false. -/
theorem claim_C3_counterexample :
    getAllStringsRel [recTieB, recTieA] [recTieA, recTieB] ∧
    [recTieA, recTieB] ≠ [recTieB, recTieA] := by
  refine ⟨⟨List.Perm.swap recTieB recTieA [], ?_⟩, by decide⟩
  unfold sortedByCreatedAt
  simp [recTieA, recTieB]

/-- C3 (amended): the enumeration always returns a permutation of the
current entries that is non-decreasing in `createdAt`; when the stored
records' `createdAt` values are strictly increasing in insertion order
the result is exactly the insertion order; but records with equal
`createdAt` have NO deterministic tiebreaker (both relative orders are
admissible, as the counterexample shows). -/
theorem claim_C3_amended :
    ∀ (store out : List AnalyzedString), getAllStringsRel store out →
      (out.Perm store ∧ sortedByCreatedAt out) ∧
      (List.Chain' (fun a b => a.createdAt < b.createdAt) store → out = store) := by
  intro store out hrel
  refine ⟨hrel, ?_⟩
  intro hstrict
  obtain ⟨hperm, hsort⟩ := hrel
  haveI htrans : IsTrans AnalyzedString (fun a b => a.createdAt < b.createdAt) :=
    ⟨fun a b c h1 h2 => Nat.lt_trans h1 h2⟩
  haveI htransle : IsTrans AnalyzedString (fun a b => a.createdAt ≤ b.createdAt) :=
    ⟨fun a b c h1 h2 => Nat.le_trans h1 h2⟩
  have hpair_store : List.Pairwise (fun a b => a.createdAt < b.createdAt) store :=
    List.chain'_iff_pairwise.1 hstrict
  have hts_nodup : (store.map AnalyzedString.createdAt).Nodup := by
    have hpne : List.Pairwise (fun a b : AnalyzedString => a.createdAt ≠ b.createdAt) store :=
      hpair_store.imp (fun h => Nat.ne_of_lt h)
    exact (List.pairwise_map).2 hpne
  have hout_nodup : (out.map AnalyzedString.createdAt).Nodup :=
    ((hperm.map AnalyzedString.createdAt).nodup_iff).2 hts_nodup
  have hout_pairle : List.Pairwise (fun a b => a.createdAt ≤ b.createdAt) out :=
    List.chain'_iff_pairwise.1 hsort
  have hne : List.Pairwise (fun a b : AnalyzedString => a.createdAt ≠ b.createdAt) out :=
    (List.pairwise_map).1 hout_nodup
  have hout_pairlt : List.Pairwise (fun a b => a.createdAt < b.createdAt) out :=
    (hout_pairle.and hne).imp (fun h => Nat.lt_of_le_of_ne h.1 h.2)
  haveI : IsAntisymm AnalyzedString (fun a b => a.createdAt < b.createdAt) :=
    ⟨fun a b h1 h2 => absurd h2 (by omega)⟩
  exact List.eq_of_perm_of_sorted hperm hout_pairlt hpair_store

/-- First record of the strictly increasing scenario (`createdAt` 1). -/
def recOrdA : AnalyzedString :=
  ⟨"id1", "b", ⟨1, true, 1, 1, "id1", [('b', 1)]⟩, 1⟩

/-- Second record of the strictly increasing scenario (`createdAt` 2). -/
def recOrdB : AnalyzedString :=
  ⟨"id2", "a", ⟨1, true, 1, 1, "id2", [('a', 1)]⟩, 2⟩

/-- Witness for C3 (amended) on a concrete strictly increasing store. -/
theorem claim_C3_witness :
    getAllStringsRel [recOrdA, recOrdB] [recOrdA, recOrdB] ∧
    ([recOrdA, recOrdB] : List AnalyzedString) = [recOrdA, recOrdB] := by
  have hchain : sortedByCreatedAt [recOrdA, recOrdB] := by
    unfold sortedByCreatedAt
    simp [recOrdA, recOrdB]
  have hrel : getAllStringsRel [recOrdA, recOrdB] [recOrdA, recOrdB] :=
    ⟨List.Perm.refl _, hchain⟩
  refine ⟨hrel, (claim_C3_amended [recOrdA, recOrdB] [recOrdA, recOrdB] hrel).2 ?_⟩
  simp [recOrdA, recOrdB]
